import Mathlib

/-!
# Provider Query Engine — verification development

Shallow embedding of the provider search application:

* the `Provider` record, translated from the TypeScript interface in
  `components/app/session-view.tsx`;
* the provider query/filter/aggregate/rank engine described in the
  specification (the engine itself — the Python search service — is not
  part of the sources available here, only its documentation and test
  corpus; engine definitions are therefore modelled from the spec and
  say so in their doc comments);
* the display helper `formatLanguages` from `session-view.tsx`;
* the provider-list accumulation logic of the `useProviderData` hook.

Floating-point values of the source (`rating`, averages) are embedded as
rationals `ℚ`; the properties at stake (sentinel vs computed value,
ordering, stability) do not depend on the floating-point representation.
-/

namespace ProviderEngine

/-- Address sub-record, from the TS interface `Provider.address` in
`session-view.tsx` (all fields optional there). -/
structure Address where
  street : Option String
  city : Option String
  state : Option String
  zip : Option String
deriving DecidableEq, Repr

/-- Provider record, translated from `export interface Provider` in
`components/app/session-view.tsx` (lines 134–154).  Optional TS fields
become `Option`; `number` fields become `Nat` (`id`, `years_experience`)
or `ℚ` (`rating`). -/
structure Provider where
  id : Nat
  full_name : String
  first_name : Option String := none
  last_name : Option String := none
  specialty : String
  phone : Option String := none
  email : Option String := none
  address : Option Address := none
  years_experience : Option Nat := none
  accepting_new_patients : Option Bool := none
  insurance_accepted : Option (List String) := none
  rating : Option ℚ := none
  license_number : Option String := none
  board_certified : Option Bool := none
  languages : Option (List String) := none
deriving DecidableEq, Repr

/-- A field value as seen by the predicate evaluator: typed content, or
`fMissing` when the record does not carry the (recognized) field. -/
inductive FieldVal where
  | fStr (s : String)
  | fNum (q : ℚ)
  | fBool (b : Bool)
  | fSet (l : List String)
  | fMissing
deriving DecidableEq, Repr

/-- Lift an optional string field. -/
def optStr : Option String → FieldVal
  | some s => .fStr s
  | none => .fMissing

/-- Lift an optional boolean field. -/
def optBool : Option Bool → FieldVal
  | some b => .fBool b
  | none => .fMissing

/-- Modelled from the spec: field lookup of the query engine (the engine
source is not in the available sources).  Returns `none` for a field name
the engine does not recognize, and `some .fMissing` for a recognized
field that is absent on the record.  `city`/`state`/`zip` reach through
the optional `address` sub-record. -/
def getField (p : Provider) (f : String) : Option FieldVal :=
  if f = "id" then some (.fNum p.id)
  else if f = "full_name" then some (.fStr p.full_name)
  else if f = "first_name" then some (optStr p.first_name)
  else if f = "last_name" then some (optStr p.last_name)
  else if f = "specialty" then some (.fStr p.specialty)
  else if f = "phone" then some (optStr p.phone)
  else if f = "email" then some (optStr p.email)
  else if f = "city" then some (optStr (p.address.bind Address.city))
  else if f = "state" then some (optStr (p.address.bind Address.state))
  else if f = "zip" then some (optStr (p.address.bind Address.zip))
  else if f = "years_experience" then
    some (match p.years_experience with
          | some n => .fNum n
          | none => .fMissing)
  else if f = "accepting_new_patients" then some (optBool p.accepting_new_patients)
  else if f = "insurance_accepted" then
    some (match p.insurance_accepted with
          | some l => .fSet l
          | none => .fMissing)
  else if f = "rating" then
    some (match p.rating with
          | some r => .fNum r
          | none => .fMissing)
  else if f = "license_number" then some (optStr p.license_number)
  else if f = "board_certified" then some (optBool p.board_certified)
  else if f = "languages" then
    some (match p.languages with
          | some l => .fSet l
          | none => .fMissing)
  else none

/-- A field name the engine recognizes. -/
def recognizedField (f : String) : Bool :=
  ["id", "full_name", "first_name", "last_name", "specialty", "phone",
   "email", "city", "state", "zip", "years_experience",
   "accepting_new_patients", "insurance_accepted", "rating",
   "license_number", "board_certified", "languages"].contains f

/-- Comparison operator kinds, per the spec's tagged-variant design note:
equality, negative predicate, strict/inclusive numeric bounds,
inclusive-between, single-element membership, full-subset membership,
explicit allow-list inclusion. -/
inductive CmpOp where
  | opEq | opNe | opGt | opGe | opLt | opLe | opBetween
  | opContains | opContainsAll | opIn
deriving DecidableEq, Repr

/-- Modelled from the spec: operator-name recognition of the engine.
`none` means the operator is not recognized. -/
def parseOp (s : String) : Option CmpOp :=
  if s = "EQUALS" then some .opEq
  else if s = "NOT_EQUALS" then some .opNe
  else if s = "GT" then some .opGt
  else if s = "GE" then some .opGe
  else if s = "LT" then some .opLt
  else if s = "LE" then some .opLe
  else if s = "BETWEEN" then some .opBetween
  else if s = "CONTAINS" then some .opContains
  else if s = "CONTAINS_ALL" then some .opContainsAll
  else if s = "IN" then some .opIn
  else none

/-- An operator name the engine recognizes. -/
def recognizedOp (s : String) : Bool :=
  (parseOp s).isSome

/-- Argument carried by an atomic predicate. -/
inductive AtomVal where
  | vStr (s : String)
  | vNum (q : ℚ)
  | vBool (b : Bool)
  | vList (l : List String)
  | vRange (lo hi : ℚ)
deriving DecidableEq, Repr

/-- Atomic predicate: a field name, an operator name, an argument.
Field and operator are carried as the raw names the caller supplied, so
that unrecognized names can be rejected (spec §7, malformed criteria). -/
structure Atom where
  field : String
  op : String
  value : AtomVal
deriving DecidableEq, Repr

/-- Modelled from the spec: evaluation of one comparison against one
field value.  An absent field (`fMissing`) makes every comparison false
(never an exception), as does an argument whose type does not fit the
field (spec §4.2, §7 "inconsistent data"). -/
def evalCmp (op : CmpOp) (fv : FieldVal) (arg : AtomVal) : Bool :=
  match op, fv, arg with
  | .opEq, .fStr s, .vStr t => s = t
  | .opEq, .fNum a, .vNum b => a = b
  | .opEq, .fBool a, .vBool b => a = b
  | .opNe, .fStr s, .vStr t => s ≠ t
  | .opNe, .fNum a, .vNum b => a ≠ b
  | .opNe, .fBool a, .vBool b => a ≠ b
  | .opGt, .fNum a, .vNum b => b < a
  | .opGe, .fNum a, .vNum b => b ≤ a
  | .opLt, .fNum a, .vNum b => a < b
  | .opLe, .fNum a, .vNum b => a ≤ b
  | .opBetween, .fNum a, .vRange lo hi => lo ≤ a ∧ a ≤ hi
  | .opContains, .fSet l, .vStr x => l.contains x
  | .opContainsAll, .fSet l, .vList xs => xs.all l.contains
  | .opIn, .fStr s, .vList xs => xs.contains s
  | _, _, _ => false

/-- Modelled from the spec: evaluation of one atomic predicate against
one provider record.  Total: an unrecognized field or operator simply
yields `false` here — the engine entry point rejects such criteria
before evaluation ever happens (see `runFilter`). -/
def evalAtom (a : Atom) (p : Provider) : Bool :=
  match getField p a.field, parseOp a.op with
  | some fv, some op => evalCmp op fv a.value
  | _, _ => false

/-- A provider matches a conjunction group iff every atomic predicate of
the group evaluates true against its fields (spec §4.2). -/
def evalConj (g : List Atom) (p : Provider) : Bool :=
  g.all (fun a => evalAtom a p)

/-- Criteria tree: a conjunction of atoms, or a disjunction of
conjunction groups (spec §4.1). -/
inductive Criteria where
  | conj (g : List Atom)
  | disj (gs : List (List Atom))
deriving DecidableEq, Repr

/-- All atoms appearing in a criteria tree. -/
def atomsOf : Criteria → List Atom
  | .conj g => g
  | .disj gs => gs.flatten

/-- First-occurrence deduplication by provider `id`, parametrised by the
set of ids already seen. -/
def dedupByIdAux (seen : List Nat) : List Provider → List Provider
  | [] => []
  | p :: ps =>
    if p.id ∈ seen then dedupByIdAux seen ps
    else p :: dedupByIdAux (p.id :: seen) ps

/-- Deduplicate a provider list by `id`, keeping the first occurrence of
each id. -/
def dedupById (ps : List Provider) : List Provider :=
  dedupByIdAux [] ps

/-- Modelled from the spec: the filter evaluator (spec §4.2).  A
conjunction keeps the providers matching every atom, in input order; a
disjunction unions the branches' filtered sets, deduplicated by
provider `id`. -/
def filterCriteria (ps : List Provider) : Criteria → List Provider
  | .conj g => ps.filter (fun p => evalConj g p)
  | .disj gs => dedupById ((gs.map (fun g => ps.filter (fun p => evalConj g p))).flatten)

/-- Engine error taxonomy (spec §7): malformed criteria fail fast. -/
inductive EngineError where
  | invalidCriteria (msg : String)
deriving DecidableEq, Repr

/-- Modelled from the spec: criteria validation.  A predicate naming a
field or operator the engine does not recognize yields a descriptive
`invalidCriteria` error naming the offender (spec §7). -/
def validateCriteria (c : Criteria) : Except EngineError Unit :=
  match (atomsOf c).find? (fun a => !(recognizedField a.field && recognizedOp a.op)) with
  | some a =>
    .error (.invalidCriteria
      ("unrecognized field or operator: " ++ a.field ++ " / " ++ a.op))
  | none => .ok ()

/-- Modelled from the spec: the engine's filter entry point.  Validates
the criteria first and propagates `invalidCriteria` to the caller;
otherwise evaluates the filter. -/
def runFilter (ps : List Provider) (c : Criteria) : Except EngineError (List Provider) :=
  match validateCriteria c with
  | .error e => .error e
  | .ok _ => .ok (filterCriteria ps c)

/-- Aggregate outcome: a computed value, or the `NoMatch` sentinel —
a first-class outcome distinct from any computed number (spec §4.3). -/
inductive AggResult where
  | value (q : ℚ)
  | noMatch
deriving DecidableEq, Repr

/-- Sum of a list of rationals. -/
def ratSum (l : List ℚ) : ℚ :=
  l.foldl (fun acc q => acc + q) 0

/-- Numeric value of a field on a record, when present. -/
def numField (p : Provider) (field : String) : Option ℚ :=
  match getField p field with
  | some (.fNum q) => some q
  | _ => none

/-- Modelled from the spec: `count(providers)` (spec §4.3). -/
def count (ps : List Provider) : Nat :=
  ps.length

/-- Modelled from the spec: `average(providers, field)` (spec §4.3).
Yields `noMatch` — not zero, not an error — when there is nothing to
average over, in particular whenever the input set is empty. -/
def average (ps : List Provider) (field : String) : AggResult :=
  match ps.filterMap (fun p => numField p field) with
  | [] => .noMatch
  | v :: vs => .value (ratSum (v :: vs) / (v :: vs).length)

/-- Modelled from the spec: the "difference" of two conditional
sub-averages; `noMatch` as soon as either operand is `noMatch`, never a
delta against an implicit zero (spec §4.3). -/
def diffAgg : AggResult → AggResult → AggResult
  | .value a, .value b => .value (a - b)
  | _, _ => .noMatch

/-- Modelled from the spec: conditional aggregation — the averages of a
field over the two mutually exclusive sub-filters (atom true / atom
false) of one base filtered set (spec §4.3). -/
def conditionalAverages (base : List Provider) (a : Atom) (field : String) :
    AggResult × AggResult :=
  (average (base.filter (fun p => evalAtom a p)) field,
   average (base.filter (fun p => !evalAtom a p)) field)

/-- Add a provider under a key, preserving first-seen key order:
an existing group is extended in place, a new key is appended. -/
def addToGroups (groups : List (String × List Provider)) (k : String) (p : Provider) :
    List (String × List Provider) :=
  match groups with
  | [] => [(k, [p])]
  | (k', g) :: rest =>
    if k' = k then (k', g ++ [p]) :: rest
    else (k', g) :: addToGroups rest k p

/-- Modelled from the spec: `groupBy(providers, key)` — mapping from key
to group, key order = first-seen order of each distinct key value
(spec §4.3). -/
def groupBy (ps : List Provider) (key : Provider → String) :
    List (String × List Provider) :=
  ps.foldl (fun acc p => addToGroups acc (key p) p) []

/-- Modelled from the spec: threshold-filtered grouping — only groups
with at least `n` members survive; an empty result (never an error) when
no group clears the threshold (spec §4.3). -/
def thresholdGroups (ps : List Provider) (key : Provider → String) (n : Nat) :
    List (String × List Provider) :=
  (groupBy ps key).filter (fun kv => n ≤ kv.2.length)

/-- Downstream count over a threshold-filtered grouping: total number of
members across the surviving groups. -/
def thresholdCount (ps : List Provider) (key : Provider → String) (n : Nat) : Nat :=
  (thresholdGroups ps key n).foldl (fun acc kv => acc + kv.2.length) 0

/-- Sort direction of one sort key (spec §4.4: each key specifies its
direction explicitly). -/
inductive SortDir where
  | asc | desc
deriving DecidableEq, Repr

/-- One sort key: a field name and a direction. -/
structure SortKey where
  field : String
  dir : SortDir
deriving DecidableEq, Repr

/-- Modelled from the spec: numeric sort value of a field.  A set-valued
field sorts by its cardinality ("insurance types accepted" means the
size of the insurance set, spec §4.4); `insurance_count` names that key
directly. -/
def keyVal (p : Provider) (f : String) : ℚ :=
  if f = "insurance_count" then ((p.insurance_accepted.getD []).length : ℚ)
  else
    match getField p f with
    | some (.fNum q) => q
    | some (.fSet l) => (l.length : ℚ)
    | _ => 0

/-- The vector of sort values of a provider under a key list, with
descending keys negated so that comparison is uniformly ascending. -/
def keyVec (keys : List SortKey) (p : Provider) : List ℚ :=
  keys.map (fun k =>
    match k.dir with
    | .asc => keyVal p k.field
    | .desc => -(keyVal p k.field))

/-- Strict lexicographic order on sort-value vectors. -/
def lexLt : List ℚ → List ℚ → Bool
  | _, [] => false
  | [], _ :: _ => true
  | a :: as_, b :: bs => if a < b then true else if b < a then false else lexLt as_ bs

/-- Stable insertion of a provider into an already-ranked list: walk past
everything strictly smaller, so that on an all-keys tie the earlier
input element stays first (spec §4.4 tie-break rule). -/
def insertRanked (lt : Provider → Provider → Bool) (p : Provider) :
    List Provider → List Provider
  | [] => [p]
  | q :: qs => if lt q p then q :: insertRanked lt p qs else p :: q :: qs

/-- Modelled from the spec: `rank(providers, sortKeys)` — multi-key sort
in key priority order, ties exhausting to the next key, final tie-break
the stable input order (spec §4.4).  Implemented as a stable insertion
sort on the lexicographic key vectors. -/
def rank (ps : List Provider) (keys : List SortKey) : List Provider :=
  ps.foldr (insertRanked (fun p q => lexLt (keyVec keys p) (keyVec keys q))) []

/-- Modelled from the spec: top-K truncation, strictly after the full
sort (spec §4.4). -/
def rankTop (ps : List Provider) (keys : List SortKey) (k : Nat) : List Provider :=
  (rank ps keys).take k

/-- Display helper, translated from `formatLanguages` in
`components/app/session-view.tsx` (lines 184–189): an absent or empty
languages set renders as "English"; otherwise the set joined with
", ". -/
def formatLanguages (p : Provider) : String :=
  match p.languages with
  | none => "English"
  | some [] => "English"
  | some (l :: ls) => String.intercalate ", " (l :: ls)

/-! ## The `useProviderData` accumulation (hooks source, part_004) -/

/-- Payload of one `provider_data` message, from the `ProviderData`
interface of the hook source: an optional provider list and an optional
single provider. -/
structure ProviderDataMsg where
  providers : Option (List Provider) := none
  provider : Option Provider := none
deriving DecidableEq, Repr

/-- The `newProviders` array the handler extracts from a message: the
`providers` list, if present, followed by the single `provider`, if
present. -/
def extractNew (d : ProviderDataMsg) : List Provider :=
  (match d.providers with | some l => l | none => []) ++
  (match d.provider with | some p => [p] | none => [])

/-- One `Map.set(k, v)` step on the insertion-ordered id→provider map:
an existing key keeps its position and gets the new value; a new key is
appended. -/
def mapSet (m : List (Nat × Provider)) (k : Nat) (v : Provider) :
    List (Nat × Provider) :=
  if m.any (fun kv => kv.1 = k) then
    m.map (fun kv => if kv.1 = k then (k, v) else kv)
  else m ++ [(k, v)]

/-- The map rebuild inside `setProviders`: all previous providers are
entered under their id, then each new provider with a truthy id
(`if (p.id)` — nonzero here) overwrites or is appended. -/
def buildMap (prev newPs : List Provider) : List (Nat × Provider) :=
  newPs.foldl (fun m p => if p.id ≠ 0 then mapSet m p.id p else m)
    (prev.foldl (fun m p => mapSet m p.id p) [])

/-- The state update `useProviderData` applies per message:
`Array.from(providerMap.values())` when at least one provider was
extracted, the previous state unchanged otherwise. -/
def applyMessage (prev : List Provider) (d : ProviderDataMsg) : List Provider :=
  let newPs := extractNew d
  if newPs.length > 0 then (buildMap prev newPs).map (fun kv => kv.2)
  else prev

/-- The provider list after a sequence of messages, starting from the
hook's initial empty state. -/
def processAll (msgs : List ProviderDataMsg) : List Provider :=
  msgs.foldl applyMessage []

/-! ## Sample records (used by witnesses) -/

/-- A fully populated sample record. -/
def sampleA : Provider :=
  { id := 1, full_name := "Donna Turner", specialty := "Pediatrics",
    address := some { street := none, city := some "San Francisco",
                      state := some "CA", zip := none },
    years_experience := some 25, accepting_new_patients := some true,
    insurance_accepted := some ["Kaiser Permanente", "Medicaid", "Aetna"],
    rating := some (49/10), board_certified := some true,
    languages := some ["Russian", "Portuguese", "Mandarin"] }

/-- A sparse sample record: no rating, no languages, no address. -/
def sampleB : Provider :=
  { id := 2, full_name := "Nicholas Nguyen", specialty := "Cardiology" }

/-! ## Helper lemmas about field lookup -/

/-- `getField` at `"languages"` reads the `languages` field. -/
theorem getField_languages (p : Provider) :
    getField p "languages" =
      some (match p.languages with
            | some l => FieldVal.fSet l
            | none => FieldVal.fMissing) := rfl

/-- `evalCmp` on an absent field is false for every operator and
argument. -/
theorem evalCmp_fMissing (op : CmpOp) (arg : AtomVal) :
    evalCmp op FieldVal.fMissing arg = false := by
  cases op <;> cases arg <;> rfl

/-! ## Claim theorems -/

/-- C2: for every field, `average` over the empty provider set returns
the `NoMatch` sentinel — never a computed value — and `NoMatch` is
distinguishable from every computed average, in particular from `0`. -/
theorem average_empty_noMatch (field : String) :
    average [] field = AggResult.noMatch ∧
    ∀ q : ℚ, (AggResult.noMatch : AggResult) ≠ AggResult.value q := by
  refine ⟨rfl, ?_⟩
  intro q h
  exact AggResult.noConfusion h

/-- C3: filtering is monotonic in the conjunction — adding one more
atomic AND predicate yields a filtered set that is a sublist (hence a
subset, of no greater size) of the filtered set without it. -/
theorem filter_conj_monotone (ps : List Provider) (g : List Atom) (a : Atom) :
    (filterCriteria ps (.conj (g ++ [a]))).Sublist (filterCriteria ps (.conj g)) ∧
    (filterCriteria ps (.conj (g ++ [a]))).length ≤ (filterCriteria ps (.conj g)).length ∧
    ∀ p, p ∈ filterCriteria ps (.conj (g ++ [a])) → p ∈ filterCriteria ps (.conj g) := by
  have key : filterCriteria ps (.conj (g ++ [a])) =
      (filterCriteria ps (.conj g)).filter (fun p => evalAtom a p) := by
    simp only [filterCriteria, List.filter_filter]
    apply List.filter_congr
    intro p _
    simp [evalConj, List.all_append, Bool.and_comm]
  have hsub : (filterCriteria ps (.conj (g ++ [a]))).Sublist (filterCriteria ps (.conj g)) := by
    rw [key]; exact List.filter_sublist _
  exact ⟨hsub, hsub.length_le, fun p hp => hsub.mem hp⟩

/-- C5: in conditional aggregation over the two mutually exclusive
sub-filters of a base set, each sub-average is `NoMatch` when its
sub-group is empty, and the difference of two sub-averages is `NoMatch`
whenever either operand is `NoMatch` — never a delta against an
implicit zero. -/
theorem conditional_averages_noMatch (base : List Provider) (a : Atom) (field : String) :
    (base.filter (fun p => evalAtom a p) = [] →
      (conditionalAverages base a field).1 = AggResult.noMatch) ∧
    (base.filter (fun p => !evalAtom a p) = [] →
      (conditionalAverages base a field).2 = AggResult.noMatch) ∧
    ∀ r1 r2 : AggResult, (r1 = AggResult.noMatch ∨ r2 = AggResult.noMatch) →
      diffAgg r1 r2 = AggResult.noMatch := by
  refine ⟨?_, ?_, ?_⟩
  · intro h
    simp [conditionalAverages, h, average]
  · intro h
    simp [conditionalAverages, h, average]
  · rintro r1 r2 (rfl | rfl)
    · cases r2 <;> rfl
    · cases r1 <;> rfl

/-- C5 witness. -/
theorem conditional_averages_noMatch_witness :
    (conditionalAverages [] ⟨"board_certified", "EQUALS", .vBool true⟩ "rating").1 =
      AggResult.noMatch ∧
    diffAgg AggResult.noMatch (AggResult.value 0) = AggResult.noMatch :=
  ⟨(conditional_averages_noMatch [] ⟨"board_certified", "EQUALS", .vBool true⟩ "rating").1 rfl,
   (conditional_averages_noMatch [] ⟨"board_certified", "EQUALS", .vBool true⟩ "rating").2.2
     AggResult.noMatch (AggResult.value 0) (Or.inl rfl)⟩

/-- C6: an atomic predicate over a field that is absent on the record
evaluates to `false` (the evaluator is a total function — no exception
path exists), and the effect is local: filtering a collection containing
such a record decomposes record by record, so only that record's own
predicate outcome is affected, never the rest of the query. -/
theorem missing_field_predicate_false (a : Atom) (p : Provider)
    (h : getField p a.field = some FieldVal.fMissing) :
    evalAtom a p = false ∧
    ∀ (g : List Atom) (l1 l2 : List Provider),
      filterCriteria (l1 ++ p :: l2) (.conj g) =
        filterCriteria l1 (.conj g) ++ filterCriteria [p] (.conj g) ++
          filterCriteria l2 (.conj g) := by
  constructor
  · rw [evalAtom, h]
    cases hop : parseOp a.op with
    | none => rfl
    | some op => exact evalCmp_fMissing op a.value
  · intro g l1 l2
    have hsplit : l1 ++ p :: l2 = l1 ++ [p] ++ l2 := by simp
    rw [hsplit]
    simp only [filterCriteria, List.filter_append, List.filter_cons]

/-- C6 witness: `sampleB` carries no rating, and a rating predicate
evaluates to `false` on it. -/
theorem missing_field_predicate_false_witness :
    evalAtom ⟨"rating", "GT", .vNum 4⟩ sampleB = false :=
  (missing_field_predicate_false ⟨"rating", "GT", .vNum 4⟩ sampleB rfl).1

/-- C8: a criteria tree containing a predicate whose field name or
operator the engine does not recognize makes the engine fail fast with a
descriptive `invalidCriteria` error propagated to the caller; such
criteria never produce an `ok` result (never silently ignored, never
"match everything"). -/
theorem invalid_criteria_fails_fast (ps : List Provider) (c : Criteria) (a : Atom)
    (ha : a ∈ atomsOf c)
    (hbad : recognizedField a.field = false ∨ recognizedOp a.op = false) :
    (∃ msg, runFilter ps c = .error (.invalidCriteria msg)) ∧
    ∀ res, runFilter ps c ≠ .ok res := by
  have hpred : (fun x : Atom => !(recognizedField x.field && recognizedOp x.op)) a = true := by
    rcases hbad with hb | hb <;> simp [hb]
  have hsome : ((atomsOf c).find?
      (fun x => !(recognizedField x.field && recognizedOp x.op))).isSome := by
    rw [List.find?_isSome]
    exact ⟨a, ha, hpred⟩
  obtain ⟨b, hfind⟩ := Option.isSome_iff_exists.mp hsome
  have hrun : runFilter ps c = .error
      (.invalidCriteria ("unrecognized field or operator: " ++ b.field ++ " / " ++ b.op)) := by
    rw [runFilter, validateCriteria, hfind]
  exact ⟨⟨_, hrun⟩, fun res hres => by rw [hrun] at hres; exact Except.noConfusion hres⟩

/-- C8 witness: a predicate over the unknown field `"frobnicate"` is
rejected, not silently accepted. -/
theorem invalid_criteria_fails_fast_witness :
    ∃ msg, runFilter [sampleA] (.conj [⟨"frobnicate", "EQUALS", .vStr "x"⟩]) =
      .error (.invalidCriteria msg) :=
  (invalid_criteria_fails_fast [sampleA] (.conj [⟨"frobnicate", "EQUALS", .vStr "x"⟩])
    ⟨"frobnicate", "EQUALS", .vStr "x"⟩ (by simp [atomsOf])
    (Or.inl (by decide))).1

/-- C9: for a provider whose languages set is absent or empty, the
display layer renders `"English"`, while the filtering predicate
"speaks X" is false for every X — including `"English"` — because
membership requires the language to be literally present. -/
theorem languages_absent_display_vs_filter (p : Provider)
    (h : p.languages = none ∨ p.languages = some []) :
    formatLanguages p = "English" ∧
    ∀ x : String, evalAtom ⟨"languages", "CONTAINS", .vStr x⟩ p = false := by
  have hfield : getField p "languages" = some FieldVal.fMissing ∨
      getField p "languages" = some (FieldVal.fSet []) := by
    rcases h with h | h
    · left; rw [getField_languages, h]
    · right; rw [getField_languages, h]
  constructor
  · rcases h with h | h <;> simp [formatLanguages, h]
  · intro x
    rcases hfield with hf | hf <;>
      simp [evalAtom, hf, parseOp, evalCmp]

/-- C9 witness: `sampleB` has no languages; it displays as `"English"`
yet does not satisfy "speaks English". -/
theorem languages_absent_display_vs_filter_witness :
    formatLanguages sampleB = "English" ∧
    evalAtom ⟨"languages", "CONTAINS", .vStr "English"⟩ sampleB = false :=
  ⟨(languages_absent_display_vs_filter sampleB (Or.inl rfl)).1,
   (languages_absent_display_vs_filter sampleB (Or.inl rfl)).2 "English"⟩

/-! ## Grouping lemmas -/

/-- `addToGroups` leaves the key list unchanged for a known key and
appends a new key at the end. -/
theorem addToGroups_keys (groups : List (String × List Provider)) (k : String) (p : Provider) :
    (addToGroups groups k p).map Prod.fst =
      if k ∈ groups.map Prod.fst then groups.map Prod.fst
      else groups.map Prod.fst ++ [k] := by
  induction groups with
  | nil => simp [addToGroups]
  | cons kv rest ih =>
    obtain ⟨k', g⟩ := kv
    by_cases hk : k' = k
    · subst hk
      simp [addToGroups]
    · simp only [addToGroups, if_neg hk, List.map_cons]
      rw [ih]
      by_cases hmem : k ∈ rest.map Prod.fst
      · rw [if_pos hmem, if_pos (List.mem_cons_of_mem _ hmem)]
      · rw [if_neg hmem, if_neg ?_, List.cons_append]
        rw [List.mem_cons]
        rintro (h | h)
        · exact hk h.symm
        · exact hmem h

/-- `addToGroups` preserves distinctness of group keys. -/
theorem addToGroups_keys_nodup (groups : List (String × List Provider)) (k : String)
    (p : Provider) (h : (groups.map Prod.fst).Nodup) :
    ((addToGroups groups k p).map Prod.fst).Nodup := by
  rw [addToGroups_keys]
  by_cases hmem : k ∈ groups.map Prod.fst
  · simpa [hmem] using h
  · rw [if_neg hmem]
    refine List.Nodup.append h (List.nodup_singleton k) ?_
    intro a ha hak
    rw [List.mem_singleton] at hak
    subst hak
    exact hmem ha

/-- Group keys produced by `groupBy` are pairwise distinct. -/
theorem groupBy_keys_nodup (ps : List Provider) (key : Provider → String) :
    ((groupBy ps key).map Prod.fst).Nodup := by
  suffices h : ∀ (l : List Provider) (acc : List (String × List Provider)),
      (acc.map Prod.fst).Nodup →
      ((l.foldl (fun acc p => addToGroups acc (key p) p) acc).map Prod.fst).Nodup by
    exact h ps [] (by simp)
  intro l
  induction l with
  | nil => intro acc hacc; simpa using hacc
  | cons p rest ih =>
    intro acc hacc
    exact ih _ (addToGroups_keys_nodup acc (key p) p hacc)

/-- In a pairwise-distinct-key association list, a key determines its
group. -/
theorem group_eq_of_keys_nodup {l : List (String × List Provider)}
    (hn : (l.map Prod.fst).Nodup) {k : String} {g1 g2 : List Provider}
    (h1 : (k, g1) ∈ l) (h2 : (k, g2) ∈ l) : g1 = g2 := by
  induction l with
  | nil => cases h1
  | cons kv rest ih =>
    rw [List.map_cons, List.nodup_cons] at hn
    rcases List.mem_cons.mp h1 with e1 | m1 <;>
      rcases List.mem_cons.mp h2 with e2 | m2
    · have h12 := e1.trans e2.symm
      rw [Prod.mk.injEq] at h12
      exact h12.2
    · exfalso
      apply hn.1
      rw [← e1]
      exact List.mem_map.mpr ⟨(k, g2), m2, rfl⟩
    · exfalso
      apply hn.1
      rw [← e2]
      exact List.mem_map.mpr ⟨(k, g1), m1, rfl⟩
    · exact ih hn.2 m1 m2

/-- C4: with threshold `N ≥ 1`, a group holding exactly `N-1` qualifying
members is excluded entirely from the threshold-filtered grouping — no
entry under its key survives — a group holding exactly `N` members is
included, and when no group clears the threshold the result is the empty
list (and the downstream count is `0`), never an error. -/
theorem threshold_grouping_boundary (ps : List Provider) (key : Provider → String)
    (n : Nat) (hn : 1 ≤ n) :
    (∀ k g, (k, g) ∈ groupBy ps key → g.length = n - 1 →
      (k, g) ∉ thresholdGroups ps key n ∧
      ∀ kv ∈ thresholdGroups ps key n, kv.1 ≠ k) ∧
    (∀ k g, (k, g) ∈ groupBy ps key → g.length = n →
      (k, g) ∈ thresholdGroups ps key n) ∧
    ((∀ kv ∈ groupBy ps key, kv.2.length < n) →
      thresholdGroups ps key n = [] ∧ thresholdCount ps key n = 0) := by
  refine ⟨?_, ?_, ?_⟩
  · intro k g hg hlen
    constructor
    · intro hmem
      have := (List.mem_filter.mp hmem).2
      simp only [decide_eq_true_eq] at this
      omega
    · intro kv hkv hk
      have hkv' := List.mem_filter.mp hkv
      have hkvg : kv.2.length ≥ n := by
        have := hkv'.2
        simp only [decide_eq_true_eq] at this
        omega
      have heq : kv.2 = g := by
        have hm : (k, kv.2) ∈ groupBy ps key := by
          have hkv2 : kv = (k, kv.2) := by
            rw [← hk]
          rw [← hkv2]
          exact hkv'.1
        exact group_eq_of_keys_nodup (groupBy_keys_nodup ps key) hm hg
      rw [heq] at hkvg
      omega
  · intro k g hg hlen
    refine List.mem_filter.mpr ⟨hg, ?_⟩
    simp only [decide_eq_true_eq]
    omega
  · intro hall
    have hnil : thresholdGroups ps key n = [] := by
      rw [thresholdGroups, List.filter_eq_nil_iff]
      intro kv hkv
      simp only [decide_eq_true_eq]
      have := hall kv hkv
      omega
    exact ⟨hnil, by rw [thresholdCount, hnil]; rfl⟩

/-- C4 witness: a single Pediatrics record forms a group of size 1 —
included at threshold 1, and at threshold 2 every group falls short, so
the result is empty with count 0. -/
theorem threshold_grouping_boundary_witness :
    ("Pediatrics", [sampleA]) ∈ thresholdGroups [sampleA] (fun p => p.specialty) 1 ∧
    thresholdGroups [sampleA] (fun p => p.specialty) 2 = [] ∧
    thresholdCount [sampleA] (fun p => p.specialty) 2 = 0 := by
  have hgb : groupBy [sampleA] (fun p => p.specialty) = [("Pediatrics", [sampleA])] := rfl
  refine ⟨?_, ?_⟩
  · exact (threshold_grouping_boundary [sampleA] (fun p => p.specialty) 1 (by decide)).2.1
      "Pediatrics" [sampleA] (by rw [hgb]; exact List.mem_singleton.mpr rfl) rfl
  · exact (threshold_grouping_boundary [sampleA] (fun p => p.specialty) 2 (by decide)).2.2
      (by rw [hgb]; intro kv hkv; rw [List.mem_singleton] at hkv; subst hkv; decide)

/-! ## Ranking lemmas -/

/-- The strict lexicographic order is irreflexive. -/
theorem lexLt_irrefl (v : List ℚ) : lexLt v v = false := by
  induction v with
  | nil => rfl
  | cons a as_ ih => simp [lexLt, ih]

/-- Inserting into a ranked list commutes with filtering by an exact
sort-value vector: the inserted provider lands in front of every
already-present provider with the same vector (everything it walks past
is strictly smaller, hence has a different vector). -/
theorem filter_insertRanked (keys : List SortKey) (v : List ℚ) (p : Provider)
    (l : List Provider) :
    (insertRanked (fun x y => lexLt (keyVec keys x) (keyVec keys y)) p l).filter
        (fun x => decide (keyVec keys x = v)) =
      if keyVec keys p = v then
        p :: l.filter (fun x => decide (keyVec keys x = v))
      else l.filter (fun x => decide (keyVec keys x = v)) := by
  induction l with
  | nil =>
    simp only [insertRanked, List.filter_cons, List.filter_nil]
    by_cases hp : keyVec keys p = v <;> simp [hp]
  | cons q qs ih =>
    simp only [insertRanked]
    by_cases hlt : lexLt (keyVec keys q) (keyVec keys p) = true
    · rw [if_pos hlt]
      simp only [List.filter_cons]
      by_cases hq : keyVec keys q = v
      · by_cases hp : keyVec keys p = v
        · exfalso
          rw [hq, hp] at hlt
          rw [lexLt_irrefl] at hlt
          exact Bool.noConfusion hlt
        · rw [ih, if_neg hp]
          simp [hq, hp]
      · rw [ih]
        by_cases hp : keyVec keys p = v <;> simp [hp, hq]
    · rw [if_neg hlt]
      simp only [List.filter_cons]
      by_cases hp : keyVec keys p = v <;> simp [hp]

/-- Inserting into a ranked list is a permutation of consing. -/
theorem insertRanked_perm (lt : Provider → Provider → Bool) (p : Provider)
    (l : List Provider) : (insertRanked lt p l).Perm (p :: l) := by
  induction l with
  | nil => exact List.Perm.refl _
  | cons q qs ih =>
    simp only [insertRanked]
    by_cases hlt : lt q p = true
    · rw [if_pos hlt]
      exact (ih.cons q).trans (List.Perm.swap p q qs)
    · rw [if_neg hlt]

/-- C7: the query pipeline is a pure function, so identical criteria over
an unchanged collection give identical results; `rank` permutes its
input (nothing dropped or duplicated), and whenever all sort keys tie —
the providers share one sort-value vector — the relative order in the
ranked output is exactly the stable input order: filtering input and
output by any fixed sort-value vector yields the same sequence. -/
theorem rank_deterministic_stable (ps : List Provider) (keys : List SortKey) :
    (rank ps keys).Perm ps ∧
    ∀ v : List ℚ,
      (rank ps keys).filter (fun p => decide (keyVec keys p = v)) =
        ps.filter (fun p => decide (keyVec keys p = v)) := by
  constructor
  · induction ps with
    | nil => exact List.Perm.refl _
    | cons p rest ih =>
      exact (insertRanked_perm _ p (rank rest keys)).trans (ih.cons p)
  · intro v
    induction ps with
    | nil => rfl
    | cons p rest ih =>
      have hstep : rank (p :: rest) keys =
          insertRanked (fun x y => lexLt (keyVec keys x) (keyVec keys y)) p
            (rank rest keys) := rfl
      rw [hstep, filter_insertRanked, List.filter_cons]
      by_cases hp : keyVec keys p = v
      · rw [if_pos hp, ih]
        simp [hp]
      · rw [if_neg hp, ih]
        simp [hp]

/-! ## Deduplication lemmas -/

/-- Ids surviving `dedupByIdAux`: exactly the input ids outside `seen`. -/
theorem mem_ids_dedupByIdAux (l : List Provider) :
    ∀ (seen : List Nat) (i : Nat),
      i ∈ (dedupByIdAux seen l).map Provider.id ↔
        i ∉ seen ∧ i ∈ l.map Provider.id := by
  induction l with
  | nil => intro seen i; simp [dedupByIdAux]
  | cons p ps ih =>
    intro seen i
    by_cases hp : p.id ∈ seen
    · rw [dedupByIdAux, if_pos hp, ih]
      constructor
      · rintro ⟨hi, hmem⟩
        refine ⟨hi, ?_⟩
        rw [List.map_cons]
        exact List.mem_cons_of_mem _ hmem
      · rintro ⟨hi, hmem⟩
        rw [List.map_cons, List.mem_cons] at hmem
        rcases hmem with rfl | hmem
        · exact absurd hp hi
        · exact ⟨hi, hmem⟩
    · rw [dedupByIdAux, if_neg hp]
      simp only [List.map_cons, List.mem_cons, ih]
      constructor
      · rintro (rfl | ⟨hi, hmem⟩)
        · exact ⟨hp, Or.inl rfl⟩
        · exact ⟨fun h => hi (Or.inr h), Or.inr hmem⟩
      · rintro ⟨hi, rfl | hmem⟩
        · exact Or.inl rfl
        · by_cases hip : i = p.id
          · exact Or.inl hip
          · exact Or.inr ⟨fun h => h.elim hip hi, hmem⟩

/-- `dedupByIdAux` produces pairwise-distinct ids. -/
theorem nodup_ids_dedupByIdAux (l : List Provider) :
    ∀ seen : List Nat, ((dedupByIdAux seen l).map Provider.id).Nodup := by
  induction l with
  | nil => intro seen; simp [dedupByIdAux]
  | cons p ps ih =>
    intro seen
    by_cases hp : p.id ∈ seen
    · rw [dedupByIdAux, if_pos hp]
      exact ih seen
    · rw [dedupByIdAux, if_neg hp]
      rw [List.map_cons, List.nodup_cons]
      refine ⟨?_, ih _⟩
      intro hmem
      exact ((mem_ids_dedupByIdAux ps _ p.id).mp hmem).1 (List.mem_cons_self _ _)

/-- C1: the disjunction of two conjunction groups filters to the union
of the branches' filtered sets deduplicated by provider id — ids in the
result are pairwise distinct, an id appears in the result iff it appears
in some branch, the result size is the cardinality of the union of the
branches' id sets, and under overlap that size is strictly below the sum
of the branch sizes. -/
theorem disjunction_union_dedup (ps : List Provider) (g1 g2 : List Atom)
    (hids : (ps.map Provider.id).Nodup) :
    ((filterCriteria ps (.disj [g1, g2])).map Provider.id).Nodup ∧
    (∀ i, i ∈ (filterCriteria ps (.disj [g1, g2])).map Provider.id ↔
      i ∈ (filterCriteria ps (.conj g1)).map Provider.id ∨
      i ∈ (filterCriteria ps (.conj g2)).map Provider.id) ∧
    (filterCriteria ps (.disj [g1, g2])).length =
      (((filterCriteria ps (.conj g1)).map Provider.id).toFinset ∪
       ((filterCriteria ps (.conj g2)).map Provider.id).toFinset).card ∧
    ((∃ i, i ∈ (filterCriteria ps (.conj g1)).map Provider.id ∧
           i ∈ (filterCriteria ps (.conj g2)).map Provider.id) →
      (filterCriteria ps (.disj [g1, g2])).length <
        (filterCriteria ps (.conj g1)).length + (filterCriteria ps (.conj g2)).length) := by
  have hdisj : filterCriteria ps (.disj [g1, g2]) =
      dedupById (ps.filter (fun p => evalConj g1 p) ++ ps.filter (fun p => evalConj g2 p)) := by
    simp [filterCriteria, dedupById]
  have hb1 : filterCriteria ps (.conj g1) = ps.filter (fun p => evalConj g1 p) := rfl
  have hb2 : filterCriteria ps (.conj g2) = ps.filter (fun p => evalConj g2 p) := rfl
  have hnodup : ((filterCriteria ps (.disj [g1, g2])).map Provider.id).Nodup := by
    rw [hdisj]
    exact nodup_ids_dedupByIdAux _ []
  have hmem : ∀ i, i ∈ (filterCriteria ps (.disj [g1, g2])).map Provider.id ↔
      i ∈ (filterCriteria ps (.conj g1)).map Provider.id ∨
      i ∈ (filterCriteria ps (.conj g2)).map Provider.id := by
    intro i
    rw [hdisj, hb1, hb2, dedupById, mem_ids_dedupByIdAux]
    simp [List.mem_append]
  have hb1n : ((filterCriteria ps (.conj g1)).map Provider.id).Nodup := by
    rw [hb1]
    exact ((List.filter_sublist ps).map Provider.id).nodup hids
  have hb2n : ((filterCriteria ps (.conj g2)).map Provider.id).Nodup := by
    rw [hb2]
    exact ((List.filter_sublist ps).map Provider.id).nodup hids
  have hfin : ((filterCriteria ps (.disj [g1, g2])).map Provider.id).toFinset =
      ((filterCriteria ps (.conj g1)).map Provider.id).toFinset ∪
      ((filterCriteria ps (.conj g2)).map Provider.id).toFinset := by
    ext i
    rw [Finset.mem_union, List.mem_toFinset, List.mem_toFinset, List.mem_toFinset]
    exact hmem i
  have hlen : (filterCriteria ps (.disj [g1, g2])).length =
      (((filterCriteria ps (.conj g1)).map Provider.id).toFinset ∪
       ((filterCriteria ps (.conj g2)).map Provider.id).toFinset).card := by
    rw [← hfin, List.toFinset_card_of_nodup hnodup, List.length_map]
  refine ⟨hnodup, hmem, hlen, ?_⟩
  rintro ⟨i, hi1, hi2⟩
  have hcard := Finset.card_union_add_card_inter
    (((filterCriteria ps (.conj g1)).map Provider.id).toFinset)
    (((filterCriteria ps (.conj g2)).map Provider.id).toFinset)
  have hpos : 0 < (((filterCriteria ps (.conj g1)).map Provider.id).toFinset ∩
      ((filterCriteria ps (.conj g2)).map Provider.id).toFinset).card := by
    refine Finset.card_pos.mpr ⟨i, ?_⟩
    rw [Finset.mem_inter, List.mem_toFinset, List.mem_toFinset]
    exact ⟨hi1, hi2⟩
  have hc1 : (((filterCriteria ps (.conj g1)).map Provider.id).toFinset).card =
      (filterCriteria ps (.conj g1)).length := by
    rw [List.toFinset_card_of_nodup hb1n, List.length_map]
  have hc2 : (((filterCriteria ps (.conj g2)).map Provider.id).toFinset).card =
      (filterCriteria ps (.conj g2)).length := by
    rw [List.toFinset_card_of_nodup hb2n, List.length_map]
  rw [hlen]
  omega

/-- C1 witness: with two branches that each match both sample records,
the unioned result holds each id once — 2 providers, not 4. -/
theorem disjunction_union_dedup_witness :
    (filterCriteria [sampleA, sampleB] (.disj [[], []])).length <
      (filterCriteria [sampleA, sampleB] (.conj [])).length +
      (filterCriteria [sampleA, sampleB] (.conj [])).length :=
  (disjunction_union_dedup [sampleA, sampleB] [] [] (by decide)).2.2.2
    ⟨1, by decide, by decide⟩

/-! ## `useProviderData` map lemmas -/

/-- A sample record with a falsy (zero) id, as a message could carry. -/
def sampleZero : Provider :=
  { id := 0, full_name := "Ghost Entry", specialty := "Unknown" }

/-- Well-formedness of the id→provider map while it is being rebuilt:
keys are pairwise distinct, every entry's key is its value's id, and the
falsy key `0` never occurs. -/
def WFMap (m : List (Nat × Provider)) : Prop :=
  (m.map Prod.fst).Nodup ∧ (∀ kv ∈ m, kv.1 = kv.2.id) ∧ 0 ∉ m.map Prod.fst

/-- Keys after a `mapSet`: the old keys plus possibly `k`. -/
theorem mapSet_keys_mem (m : List (Nat × Provider)) (k : Nat) (v : Provider) (k0 : Nat) :
    k0 ∈ (mapSet m k v).map Prod.fst ↔ k0 ∈ m.map Prod.fst ∨ k0 = k := by
  rw [mapSet]
  by_cases hany : m.any (fun kv => decide (kv.1 = k))
  · rw [if_pos hany]
    have hkeys : (m.map fun kv => if kv.1 = k then (k, v) else kv).map Prod.fst =
        m.map Prod.fst := by
      rw [List.map_map]
      apply List.map_congr_left
      intro kv _
      by_cases hk : kv.1 = k
      · simp [hk]
      · simp [hk]
    rw [hkeys]
    constructor
    · exact Or.inl
    · rintro (h | rfl)
      · exact h
      · rcases List.any_eq_true.mp hany with ⟨kv, hkv, hkvk⟩
        rw [decide_eq_true_eq] at hkvk
        exact hkvk ▸ List.mem_map.mpr ⟨kv, hkv, rfl⟩
  · rw [if_neg hany]
    rw [List.map_append, List.mem_append]
    simp [List.mem_singleton]

/-- `mapSet` with a nonzero key that equals the value's id preserves
map well-formedness. -/
theorem mapSet_wf {m : List (Nat × Provider)} (hm : WFMap m) (v : Provider)
    (hv : v.id ≠ 0) : WFMap (mapSet m v.id v) := by
  obtain ⟨hnd, hpair, hz⟩ := hm
  refine ⟨?_, ?_, ?_⟩
  · rw [mapSet]
    by_cases hany : m.any (fun kv => decide (kv.1 = v.id))
    · rw [if_pos hany, List.map_map]
      have hcomp : (m.map
            (Prod.fst ∘ fun kv => if kv.1 = v.id then ((v.id, v) : Nat × Provider) else kv)) =
          m.map Prod.fst := by
        apply List.map_congr_left
        intro kv _
        by_cases hk : kv.1 = v.id <;> simp [hk]
      rw [hcomp]
      exact hnd
    · rw [if_neg hany, List.map_append]
      refine List.Nodup.append hnd (List.nodup_singleton v.id) ?_
      intro a ha hak
      rw [List.map_singleton, List.mem_singleton] at hak
      subst hak
      rw [List.any_eq_true] at hany
      rcases List.mem_map.mp ha with ⟨kv, hkv, hfst⟩
      exact hany ⟨kv, hkv, decide_eq_true hfst⟩
  · intro kv hkv
    rw [mapSet] at hkv
    by_cases hany : m.any (fun kv => decide (kv.1 = v.id))
    · rw [if_pos hany] at hkv
      rcases List.mem_map.mp hkv with ⟨kv0, hkv0, hf⟩
      by_cases hk : kv0.1 = v.id
      · rw [if_pos hk] at hf
        rw [← hf]
      · rw [if_neg hk] at hf
        rw [← hf]
        exact hpair kv0 hkv0
    · rw [if_neg hany, List.mem_append] at hkv
      rcases hkv with h | h
      · exact hpair kv h
      · rw [List.mem_singleton] at h
        rw [h]
  · intro h0
    rw [mapSet_keys_mem] at h0
    rcases h0 with h | h
    · exact hz h
    · exact hv h.symm

/-- Rebuilding the map from the previous provider list preserves
well-formedness provided the previous list is free of falsy ids. -/
theorem foldl_prev_wf (prev : List Provider) :
    ∀ m : List (Nat × Provider), WFMap m → (∀ p ∈ prev, p.id ≠ 0) →
      WFMap (prev.foldl (fun m p => mapSet m p.id p) m) := by
  induction prev with
  | nil => intro m hm _; exact hm
  | cons p rest ih =>
    intro m hm hz
    exact ih _ (mapSet_wf hm p (hz p (List.mem_cons_self _ _)))
      (fun q hq => hz q (List.mem_cons_of_mem _ hq))

/-- Folding the new providers over the map — each guarded by the
truthiness check on its id — preserves well-formedness. -/
theorem foldl_new_wf (newPs : List Provider) :
    ∀ m : List (Nat × Provider), WFMap m →
      WFMap (newPs.foldl (fun m p => if p.id ≠ 0 then mapSet m p.id p else m) m) := by
  induction newPs with
  | nil => intro m hm; exact hm
  | cons p rest ih =>
    intro m hm
    simp only [List.foldl_cons]
    by_cases hp : p.id ≠ 0
    · rw [if_pos hp]
      exact ih _ (mapSet_wf hm p hp)
    · rw [if_neg hp]
      exact ih _ hm

/-- The values of a well-formed map have pairwise distinct, nonzero
ids. -/
theorem wf_values {m : List (Nat × Provider)} (hm : WFMap m) :
    ((m.map (fun kv => kv.2)).map Provider.id).Nodup ∧
    ∀ q ∈ m.map (fun kv => kv.2), q.id ≠ 0 := by
  obtain ⟨hnd, hpair, hz⟩ := hm
  have hids : (m.map (fun kv => kv.2)).map Provider.id = m.map Prod.fst := by
    rw [List.map_map]
    apply List.map_congr_left
    intro kv hkv
    exact (hpair kv hkv).symm
  constructor
  · rw [hids]; exact hnd
  · intro q hq h0
    rcases List.mem_map.mp hq with ⟨kv, hkv, hv⟩
    apply hz
    have hk0 : kv.1 = 0 := by rw [hpair kv hkv, hv, h0]
    rw [← hk0]
    exact List.mem_map.mpr ⟨kv, hkv, rfl⟩

/-- Every entry of `mapSet m k v` carrying the key `k` carries the value
`v` — the old value under `k` is replaced. -/
theorem mapSet_lookup (m : List (Nat × Provider)) (k : Nat) (v : Provider) :
    ∀ kv ∈ mapSet m k v, kv.1 = k → kv.2 = v := by
  intro kv hkv hk
  rw [mapSet] at hkv
  by_cases hany : m.any (fun kv => decide (kv.1 = k))
  · rw [if_pos hany] at hkv
    rcases List.mem_map.mp hkv with ⟨kv0, hkv0, hf⟩
    by_cases h0 : kv0.1 = k
    · rw [if_pos h0] at hf
      rw [← hf]
    · rw [if_neg h0] at hf
      rw [← hf] at hk
      exact absurd hk h0
  · rw [if_neg hany, List.mem_append] at hkv
    rcases hkv with h | h
    · exfalso
      rw [List.any_eq_true] at hany
      exact hany ⟨kv, h, decide_eq_true hk⟩
    · rw [List.mem_singleton] at h
      rw [h]

/-- `(k, v)` itself is present after `mapSet m k v`. -/
theorem mapSet_mem_self (m : List (Nat × Provider)) (k : Nat) (v : Provider) :
    (k, v) ∈ mapSet m k v := by
  rw [mapSet]
  by_cases hany : m.any (fun kv => decide (kv.1 = k))
  · rw [if_pos hany]
    rcases List.any_eq_true.mp hany with ⟨kv, hkv, hk⟩
    rw [decide_eq_true_eq] at hk
    refine List.mem_map.mpr ⟨kv, hkv, ?_⟩
    rw [if_pos hk]
  · rw [if_neg hany]
    exact List.mem_append_right _ (List.mem_singleton.mpr rfl)

/-- C10: the provider list accumulated by `useProviderData` keeps its
invariant under any sequence of `provider_data` messages — no two
entries share an id and no entry has the falsy id `0` (a falsy-id
provider is silently dropped, never added) — and a received provider
whose nonzero id is already present replaces the earlier entry: after
the update the unique entry under that id is the new provider. -/
theorem useProviderData_invariant :
    (∀ msgs : List ProviderDataMsg,
      ((processAll msgs).map Provider.id).Nodup ∧
      ∀ q ∈ processAll msgs, q.id ≠ 0) ∧
    (∀ (prev : List Provider) (p : Provider), p.id ≠ 0 →
      p ∈ applyMessage prev { provider := some p } ∧
      ∀ q ∈ applyMessage prev { provider := some p }, q.id = p.id → q = p) ∧
    ∀ (prev : List Provider) (p : Provider), (∀ q ∈ prev, q.id ≠ 0) → p.id = 0 →
      p ∉ applyMessage prev { provider := some p } := by
  have hinv : ∀ (l : List Provider), ((l.map Provider.id).Nodup ∧ ∀ q ∈ l, q.id ≠ 0) →
      ∀ d : ProviderDataMsg,
        (((applyMessage l d).map Provider.id).Nodup ∧ ∀ q ∈ applyMessage l d, q.id ≠ 0) := by
    intro l hl d
    rw [applyMessage]
    by_cases hlen : (extractNew d).length > 0
    · rw [if_pos hlen]
      refine wf_values (foldl_new_wf (extractNew d) _ (foldl_prev_wf l _ ?_ hl.2))
      exact ⟨List.nodup_nil, fun kv h => absurd h (List.not_mem_nil kv), fun h => absurd h (List.not_mem_nil 0)⟩
    · rw [if_neg hlen]
      exact hl
  refine ⟨?_, ?_, ?_⟩
  · intro msgs
    rw [processAll]
    induction msgs using List.reverseRecOn with
    | nil => exact ⟨List.nodup_nil, fun q h => absurd h (List.not_mem_nil q)⟩
    | append_singleton rest d ih =>
      rw [List.foldl_append, List.foldl_cons, List.foldl_nil]
      exact hinv _ ih d
  · intro prev p hp
    have hmsg : extractNew { provider := some p } = [p] := rfl
    have happ : applyMessage prev { provider := some p } =
        (mapSet (prev.foldl (fun m q => mapSet m q.id q) []) p.id p).map (fun kv => kv.2) := by
      rw [applyMessage, hmsg]
      rw [if_pos (by simp : ([p] : List Provider).length > 0)]
      rw [buildMap, List.foldl_cons, List.foldl_nil, if_pos hp]
    have hpairs : ∀ m : List (Nat × Provider), (∀ kv ∈ m, kv.1 = kv.2.id) →
        ∀ (l : List Provider) , ∀ kv ∈ l.foldl (fun m q => mapSet m q.id q) m, kv.1 = kv.2.id := by
      intro m hm l
      induction l generalizing m with
      | nil => exact hm
      | cons q rest ih =>
        rw [List.foldl_cons]
        refine ih _ ?_
        intro kv hkv
        rw [mapSet] at hkv
        by_cases hany : m.any (fun kv => decide (kv.1 = q.id))
        · rw [if_pos hany] at hkv
          rcases List.mem_map.mp hkv with ⟨kv0, hkv0, hf⟩
          by_cases h0 : kv0.1 = q.id
          · rw [if_pos h0] at hf; rw [← hf]
          · rw [if_neg h0] at hf; rw [← hf]; exact hm kv0 hkv0
        · rw [if_neg hany, List.mem_append] at hkv
          rcases hkv with h | h
          · exact hm kv h
          · rw [List.mem_singleton] at h; rw [h]
    constructor
    · rw [happ]
      exact List.mem_map.mpr ⟨(p.id, p), mapSet_mem_self _ p.id p, rfl⟩
    · intro q hq hid
      rw [happ] at hq
      rcases List.mem_map.mp hq with ⟨kv, hkv, hv⟩
      have hkvpair : kv.1 = kv.2.id := by
        rw [mapSet] at hkv
        by_cases hany : (prev.foldl (fun m q => mapSet m q.id q) []).any
            (fun kv => decide (kv.1 = p.id))
        · rw [if_pos hany] at hkv
          rcases List.mem_map.mp hkv with ⟨kv0, hkv0, hf⟩
          by_cases h0 : kv0.1 = p.id
          · rw [if_pos h0] at hf; rw [← hf]
          · rw [if_neg h0] at hf; rw [← hf]
            exact hpairs [] (fun kv h => absurd h (List.not_mem_nil kv)) prev kv0 hkv0
        · rw [if_neg hany, List.mem_append] at hkv
          rcases hkv with h | h
          · exact hpairs [] (fun kv h => absurd h (List.not_mem_nil kv)) prev kv h
          · rw [List.mem_singleton] at h; rw [h]
      have hkey : kv.1 = p.id := by
        rw [hkvpair, hv, hid]
      have := mapSet_lookup _ p.id p kv hkv hkey
      rw [← hv, this]
  · intro prev p hprev hp0 hmem
    have hmsg : extractNew { provider := some p } = [p] := rfl
    rw [applyMessage, hmsg] at hmem
    rw [if_pos (by simp : ([p] : List Provider).length > 0)] at hmem
    rw [buildMap, List.foldl_cons, List.foldl_nil, if_neg (by simpa using hp0)] at hmem
    have hwf : WFMap (prev.foldl (fun m q => mapSet m q.id q) []) :=
      foldl_prev_wf prev []
        ⟨List.nodup_nil, fun kv h => absurd h (List.not_mem_nil kv),
         fun h => absurd h (List.not_mem_nil 0)⟩ hprev
    exact (wf_values hwf).2 p hmem hp0

/-- C10 witness: a nonzero-id record is stored (and is the unique entry
under its id); a zero-id record is dropped. -/
theorem useProviderData_invariant_witness :
    sampleA ∈ applyMessage [] { provider := some sampleA } ∧
    sampleZero ∉ applyMessage [] { provider := some sampleZero } :=
  ⟨(useProviderData_invariant.2.1 [] sampleA (by decide)).1,
   useProviderData_invariant.2.2 [] sampleZero
     (fun q hq => absurd hq (List.not_mem_nil q)) rfl⟩

end ProviderEngine
